import Mathlib

/-!
Verification development for a perpetual-futures trading system consisting of
three Python modules: a clock-synchronisation manager (time_sync_config.py),
a futures trader (binance_main.py) and a take-profit monitor
(binance_take_profit.py).  Numeric values handled by the Python code as
floats are embedded as exact rationals; millisecond timestamps as integers.
-/

namespace Range

/-! ## Rounding helpers (Python semantics)

Python's builtin round() performs round-half-to-even; string formatting to a
fixed number of decimals also rounds half to even.  Both are modelled on ℚ. -/

/-- Floor of a rational as an integer, computed from the reduced fraction
(the denominator of a Rat is always positive, so floor division of the
numerator by the denominator is the mathematical floor). -/
def ratFloor (q : ℚ) : ℤ :=
  q.num.fdiv q.den

/-- Python round(x): round to the nearest integer, ties to even. -/
def pyRound (q : ℚ) : ℤ :=
  if q - (ratFloor q : ℚ) < 1/2 then ratFloor q
  else if 1/2 < q - (ratFloor q : ℚ) then ratFloor q + 1
  else if ratFloor q % 2 = 0 then ratFloor q else ratFloor q + 1

/-- Python round(x, p) and fixed-point string formatting to p decimals:
round to the nearest multiple of 10 ^ (-p), ties to even. -/
def roundToPrec (q : ℚ) (p : ℕ) : ℚ :=
  (pyRound (q * (10 : ℚ) ^ p) : ℚ) / (10 : ℚ) ^ p

/-! ## OrderLifecycleManager: lot-compliant order sizing

BinanceFuturesTrader.calculate_quantity (binance_main.py, lines 317-364).
The two exchange reads (mark price and instrument metadata) are passed in as
arguments; the arithmetic below mirrors the Python body:
  raw_quantity = usdt_amount * leverage / price
  quantity = round(raw_quantity / step_size) * step_size
  if quantity < min_qty: return None
  quantity_str = f-string of quantity at quantityPrecision decimals,
  trailing zeros and decimal point stripped (value unchanged by stripping). -/

/-- Lot-size metadata of an instrument: LOT_SIZE stepSize / minQty and the
quantityPrecision field. -/
structure LotRule where
  stepSize : ℚ
  minQty : ℚ
  quantityPrecision : ℕ
deriving DecidableEq

def calculate_quantity (usdt_amount leverage price : ℚ) (rule : LotRule) :
    Option ℚ :=
  let raw_quantity := usdt_amount * leverage / price
  let quantity := (pyRound (raw_quantity / rule.stepSize) : ℚ) * rule.stepSize
  if quantity < rule.minQty then none
  else some (roundToPrec quantity rule.quantityPrecision)

/-- q is an exact integer multiple of step. -/
def IsMultipleOf (step q : ℚ) : Prop := ∃ k : ℤ, q = (k : ℚ) * step

/-! ## SignalEngine: entry condition

BinanceFuturesTrader.check_open_long_signal (binance_main.py, lines
529-554), evaluated on the most recently completed candle with populated
moving averages (a missing-MA snapshot is discarded upstream and reaches the
signal as None, returning False; only populated snapshots are modelled). -/

/-- CandleSnapshot with populated ma fields (the row handed to
check_open_long_signal). -/
structure Kline where
  «open» : ℚ
  high : ℚ
  low : ℚ
  close : ℚ
  ma_20 : ℚ
  ma_60 : ℚ
deriving DecidableEq

def check_open_long_signal (k : Kline) : Bool :=
  let price_change := (k.close - k.«open») / k.«open» * 100
  let open_low_change := (k.«open» - k.low) / k.«open» * 100
  let max_ma := max k.ma_20 k.ma_60
  let above_ma_change := (k.close - max_ma) / max_ma * 100
  decide (1 ≤ price_change ∧ price_change < 4) &&
  decide (k.close > k.ma_60) && decide (k.close > k.ma_20) &&
  decide (|open_low_change| < 4) &&
  decide (0 < above_ma_change ∧ above_ma_change < 11)

/-- The spec's formulation of the entry condition, written from its own
four-conjunct description (for comparison against the code's predicate). -/
def SpecSignalFires (k : Kline) : Prop :=
  (1 ≤ (k.close - k.«open») / k.«open» * 100 ∧
    (k.close - k.«open») / k.«open» * 100 < 4) ∧
  (k.close > k.ma_20 ∧ k.close > k.ma_60) ∧
  |(k.«open» - k.low) / k.«open» * 100| < 4 ∧
  (0 < (k.close - max k.ma_20 k.ma_60) / max k.ma_20 k.ma_60 * 100 ∧
    (k.close - max k.ma_20 k.ma_60) / max k.ma_20 k.ma_60 * 100 < 11)

/-! ## ResilientRequestExecutor

BinanceFuturesTrader.safe_request (binance_main.py, lines 83-105):

  for attempt in range(self.max_retries):          # max_retries = 3
      try: return request_func(*args, **kwargs)
      except Exception as e:
          if hasattr(e, 'code') and e.code in [-4059]: raise e
          if hasattr(e, 'code') and e.code == 1021:
              time_sync_manager.sync_time(); sleep; continue
          last_exception = e; sleep
  raise last_exception if last_exception else Exception('unknown request error')

The behaviour of request_func on the i-th attempt is supplied as a function
from the attempt index to an outcome.  An exception is modelled by its
optional numeric code (hasattr(e, 'code')) plus a tag that identifies the
exception object. -/

/-- A Python exception as classified by safe_request: optional code
attribute plus an identity tag. -/
structure ReqError where
  code : Option ℤ
  tag : ℕ
deriving DecidableEq

inductive Outcome (α : Type) where
  | ok (v : α)
  | err (e : ReqError)
deriving DecidableEq

/-- Result of a safe_request call: a returned value, a raised exception, or
the raised generic unknown-request-error exception from the final line. -/
inductive SRResult (α : Type) where
  | ok (v : α)
  | raised (e : ReqError)
  | unknownError
deriving DecidableEq

/-- The retry loop; i is the next attempt index, fuel the remaining
iterations of range(max_retries), lastExc the last_exception variable.
Returns the result together with the number of attempts performed. -/
def safeRequestGo (outcomes : ℕ → Outcome α) :
    ℕ → ℕ → Option ReqError → SRResult α × ℕ
  | i, 0, lastExc =>
    (match lastExc with
     | some e => .raised e
     | none => .unknownError, i)
  | i, fuel + 1, lastExc =>
    match outcomes i with
    | .ok v => (.ok v, i + 1)
    | .err e =>
      if e.code = some (-4059) then (.raised e, i + 1)
      else if e.code = some 1021 then safeRequestGo outcomes (i + 1) fuel lastExc
      else safeRequestGo outcomes (i + 1) fuel (some e)

def safe_request (outcomes : ℕ → Outcome α) : SRResult α × ℕ :=
  safeRequestGo outcomes 0 3 none

/-- An error neither permanently rejected (-4059) nor a clock-skew signal
(1021): safe_request records it and retries. -/
def Transient (e : ReqError) : Prop :=
  e.code ≠ some (-4059) ∧ e.code ≠ some 1021

/-! ## ClockSync

TimeSyncManager (time_sync_config.py).  All wall-clock readings are
modelled in integer milliseconds (the Python code stores last_sync_time in
seconds and compares against min_sync_interval = 5 s; scaling both to
milliseconds preserves the comparison).  sync_interval = 1800 s,
min_sync_interval = 5 s. -/

/-- Mutable state of TimeSyncManager (the fields touched by sync_time /
get_synced_timestamp). -/
structure SyncState where
  time_offset : ℤ
  last_server_time : ℤ
  last_local_time : ℤ
  is_synced : Bool
  last_sync_time : ℤ
deriving DecidableEq

/-- One endpoint interaction that returned a response: the two
int(time.time()*1000) readings around requests.get and the reported
serverTime field. -/
structure Sample where
  reqStart : ℤ
  reqEnd : ℤ
  serverTime : ℤ
deriving DecidableEq

/-- Environment of one sync_time call: the time.time() reading at the top
(in ms; it serves as both the throttle check value and local_request_time),
the per-endpoint outcomes in endpoint order (none = the bare except was
taken, i.e. the endpoint was unreachable; the Python code queries four
fixed endpoints), and the int(time.time()*1000) reading taken for
local_response_time after the loop. -/
structure SyncEnv where
  startTime : ℤ
  samples : List (Option Sample)
  respTime : ℤ
deriving DecidableEq

inductive SyncOutcome where
  | throttled
  | failed
  | synced
deriving DecidableEq

/-- The endpoint loop: binance_time / network_delay start at (0, 1000);
every reachable endpoint overwrites both; the loop breaks at the first
sample whose delay is below 500 ms. -/
def selectSample : List (Option Sample) → ℤ × ℤ → ℤ × ℤ
  | [], acc => acc
  | none :: rest, acc => selectSample rest acc
  | some s :: rest, _ =>
    let d := s.reqEnd - s.reqStart
    if d < 500 then (s.serverTime, d) else selectSample rest (s.serverTime, d)

/-- TimeSyncManager.sync_time (time_sync_config.py, lines 63-113).
Python // is floor division, modelled by Int.fdiv. -/
def sync_time (force : Bool) (env : SyncEnv) (st : SyncState) :
    SyncState × SyncOutcome :=
  if ¬force ∧ env.startTime - st.last_sync_time < 5000 then (st, .throttled)
  else
    let bd := selectSample env.samples (0, 1000)
    if bd.1 = 0 then ({ st with is_synced := false }, .failed)
    else
      ({ time_offset := bd.1 - (env.startTime + Int.fdiv bd.2 2),
         last_server_time := bd.1,
         last_local_time := env.respTime,
         is_synced := true,
         last_sync_time := env.startTime }, .synced)

/-- Environment of one get_synced_timestamp call: the sync environment and
clock reading used if the state is unsynced on entry, the first
int(time.time()*1000) reading, and the sync environment plus refreshed
clock reading used if the staleness branch triggers a resync. -/
structure GstEnv where
  syncEnv1 : SyncEnv
  clock1 : ℤ
  syncEnv2 : SyncEnv
  clock2 : ℤ
deriving DecidableEq

/-- TimeSyncManager.get_synced_timestamp (time_sync_config.py, lines
115-128).  sync_interval * 1000 = 1800000 ms. -/
def get_synced_timestamp (env : GstEnv) (st : SyncState) : SyncState × ℤ :=
  let st1 := if st.is_synced then st else (sync_time false env.syncEnv1 st).1
  let now1 := env.clock1
  let stNow :=
    if now1 - st1.last_local_time > 1800000 then
      ((sync_time false env.syncEnv2 st1).1, env.clock2)
    else (st1, now1)
  if stNow.1.last_server_time > 0 then
    (stNow.1, stNow.1.last_server_time + (stNow.2 - stNow.1.last_local_time))
  else
    (stNow.1, stNow.2 + stNow.1.time_offset)

/-- A sample the endpoint loop does not accept outright: unreachable, or
its round-trip delay is at least the 500 ms threshold. -/
def NotAccepted (x : Option Sample) : Prop :=
  ∀ s : Sample, x = some s → 500 ≤ s.reqEnd - s.reqStart

/-- Value of binance_time / network_delay after running the loop with no
early break: the last reachable endpoint wins. -/
def lastSample (l : List (Option Sample)) (acc : ℤ × ℤ) : ℤ × ℤ :=
  l.foldl
    (fun a x =>
      match x with
      | none => a
      | some s => (s.serverTime, s.reqEnd - s.reqStart)) acc

/-! ## OrderLifecycleManager: protective-order tracking

self.order_relations is a Python dict {symbol: {'stop_loss': orderId}}
(binance_main.py, line 61).  It is modelled as an insertion-ordered
association list from symbol to stop-loss order id; Python dict semantics
(unique keys, update-in-place, del) are mirrored by dictInsert/dictDelete.
Symbols and order ids are drawn from ℕ. -/

abbrev Relations : Type := List (ℕ × ℕ)

/-- order_relations[symbol]['stop_loss'] = oid (creating the inner dict if
absent): replace the value when the key exists, else append. -/
def dictInsert (sym oid : ℕ) (rel : Relations) : Relations :=
  if rel.any (fun p => p.1 == sym) then
    rel.map (fun p => if p.1 == sym then (sym, oid) else p)
  else rel ++ [(sym, oid)]

/-- del order_relations[symbol], guarded by the membership test. -/
def dictDelete (sym : ℕ) (rel : Relations) : Relations :=
  rel.filter (fun p => p.1 != sym)

/-- Number of stop-loss records the table holds for a symbol. -/
def countFor (sym : ℕ) (rel : Relations) : ℕ :=
  (rel.filter (fun p => p.1 == sym)).length

/-- The keys of the table are pairwise distinct (Python dict invariant). -/
def KeysNodup (rel : Relations) : Prop :=
  (rel.map Prod.fst).Nodup

/-- BinanceFuturesTrader.cancel_associated_orders (binance_main.py, lines
556-581): its only effect on order_relations is the final del, which is
skipped when listing the open orders raised (the whole body sits in a try
whose except only logs).  Per-order cancellations touch the exchange only.
listOk records whether futures_get_open_orders succeeded. -/
def cancel_associated_orders (listOk : Bool) (sym : ℕ) (rel : Relations) :
    Relations :=
  if listOk then dictDelete sym rel else rel

/-- External interactions of one set_stop_loss call. -/
structure SetSLEnv where
  /-- get_position result: none when no position with positionAmt > 0 was
  found; the code re-checks positionAmt == 0. -/
  positionAmt : Option ℚ
  /-- was the symbol found in futures_exchange_info. -/
  symbolInfo : Bool
  /-- pricePrecision of the instrument. -/
  pricePrecision : ℕ
  /-- did futures_get_open_orders succeed inside cancel_associated_orders. -/
  listOk : Bool
  /-- futures_create_order result: the new order id, or none when the
  request raised (caught; the function returns None). -/
  orderId : Option ℕ

/-- BinanceFuturesTrader.set_stop_loss (binance_main.py, lines 392-433).
klineLow is the referenced candle's low; the stop price
round(kline['low'] * 0.999, price_precision) is returned with the order id
for inspection.  Result: updated order_relations and the created order
(id, stopPrice), or none. -/
def set_stop_loss (env : SetSLEnv) (klineLow : ℚ) (sym : ℕ)
    (rel : Relations) : Relations × Option (ℕ × ℚ) :=
  match env.positionAmt with
  | none => (rel, none)
  | some amt =>
    if amt = 0 then (rel, none)
    else if ¬env.symbolInfo then (rel, none)
    else
      let stop_price := roundToPrec (klineLow * (999 / 1000)) env.pricePrecision
      let rel1 := cancel_associated_orders env.listOk sym rel
      match env.orderId with
      | none => (rel1, none)
      | some oid => (dictInsert sym oid rel1, some (oid, stop_price))

/-- External interactions of one update_stop_loss call. -/
structure UpdSLEnv where
  positionAmt : Option ℚ
  /-- get_current_hour_klines result: (open, low) of the in-progress hourly
  candle plus its close; none when fetching failed. -/
  hourKline : Option (ℚ × ℚ × ℚ)
  symbolInfo : Bool
  pricePrecision : ℕ
  listOk : Bool
  orderId : Option ℕ
  /-- did futures_get_order report status == 'NEW' for the created order
  (false also covers the verification request raising, which the inner
  except turns into return None without recording the order). -/
  verifiedNew : Bool

/-- BinanceFuturesTrader.update_stop_loss (binance_main.py, lines 435-513).
hourKline is (open, low, close); price_change_pct =
(close - open) / open * 100 as computed by get_current_hour_klines.  When
price_change_pct < 1.0 the body of the if is skipped and the function
falls through to an implicit return None. -/
def update_stop_loss (env : UpdSLEnv) (sym : ℕ) (rel : Relations) :
    Relations × Option (ℕ × ℚ) :=
  match env.positionAmt with
  | none => (rel, none)
  | some amt =>
    if amt = 0 then (rel, none)
    else
      match env.hourKline with
      | none => (rel, none)
      | some k =>
        let price_change := (k.2.2 - k.1) / k.1 * 100
        if price_change < 1 then (rel, none)
        else if ¬env.symbolInfo then (rel, none)
        else
          let new_stop_price :=
            roundToPrec (k.2.1 * (999 / 1000)) env.pricePrecision
          let rel1 := cancel_associated_orders env.listOk sym rel
          match env.orderId with
          | none => (rel1, none)
          | some oid =>
            if env.verifiedNew then
              (dictInsert sym oid rel1, some (oid, new_stop_price))
            else (rel1, none)

/-! ## TakeProfitMonitor

binance_take_profit.py.  self.take_profit_executed is a Python set of
symbols, modelled as a duplicate-free list built by guarded cons. -/

/-- A live position row as read from futures_position_information (only
rows with positionAmt != 0 survive get_positions). -/
structure TpPosition where
  symbol : ℕ
  positionAmt : ℚ
  entryPrice : ℚ
deriving DecidableEq

/-- A reduce-only market order as submitted by take_profit_half_position:
side (sell = closing a long), quantity, and the reduceOnly / market type
flags passed to futures_create_order. -/
structure TpOrder where
  sell : Bool
  qty : ℚ
  reduceOnly : Bool
  market : Bool
deriving DecidableEq

/-- External interactions of one take_profit_half_position call. -/
structure TphpEnv where
  /-- get_current_price result (none = failure, logged, abort). -/
  currentPrice : Option ℚ
  /-- was the symbol found in futures_exchange_info. -/
  symbolInfo : Bool
  /-- the LOT_SIZE filter, when the instrument carries one (stepSize,
  minQty); the code skips the adjustment when it is absent. -/
  lotFilter : Option (ℚ × ℚ)
  /-- did futures_create_order succeed. -/
  orderOk : Bool
deriving DecidableEq

/-- TakeProfitMonitor.take_profit_half_position (binance_take_profit.py,
lines 133-199), with the memo update (take_profit_executed.add on success)
left to the caller model.  Returns the submitted order, if any, and the
boolean the Python function returns. -/
def take_profit_half_position (env : TphpEnv) (pos : TpPosition) :
    Option TpOrder × Bool :=
  match env.currentPrice with
  | none => (none, false)
  | some _ =>
    let half_quantity := |pos.positionAmt| / 2
    if ¬env.symbolInfo then (none, false)
    else
      match env.lotFilter with
      | some f =>
        let adjusted := (pyRound (half_quantity / f.1) : ℚ) * f.1
        if adjusted < f.2 then (none, false)
        else if env.orderOk then
          (some ⟨decide (pos.positionAmt > 0), adjusted, true, true⟩, true)
        else (none, false)
      | none =>
        if env.orderOk then
          (some ⟨decide (pos.positionAmt > 0), half_quantity, true, true⟩, true)
        else (none, false)

/-- Environment of one check_and_execute_take_profit run: the position
snapshot, the per-symbol get_current_price oracle used by the outer loop,
and the per-symbol environment of a take_profit_half_position call. -/
structure CheckEnv where
  positions : List TpPosition
  priceOf : ℕ → Option ℚ
  tphpEnvOf : ℕ → TphpEnv

/-- One iteration of the position loop inside
check_and_execute_take_profit: skip symbols already in the memo, skip on
price failure, and attempt the half close when
current/entry (long) or entry/current (short) is at least the threshold;
a successful close adds the symbol to the memo and is recorded. -/
def checkPosStep (thr : ℚ) (env : CheckEnv) (acc : List ℕ × List ℕ)
    (pos : TpPosition) : List ℕ × List ℕ :=
  if acc.1.contains pos.symbol then acc
  else
    match env.priceOf pos.symbol with
    | none => acc
    | some price =>
      let price_ratio :=
        if pos.positionAmt > 0 then price / pos.entryPrice
        else pos.entryPrice / price
      if price_ratio ≥ thr then
        if (take_profit_half_position (env.tphpEnvOf pos.symbol) pos).2 then
          (pos.symbol :: acc.1, pos.symbol :: acc.2)
        else acc
      else acc

/-- TakeProfitMonitor.check_and_execute_take_profit
(binance_take_profit.py, lines 201-247).  Returns the new
take_profit_executed memo together with the symbols successfully
half-closed during this run.  When the position list is empty the function
logs and returns before the memo-cleanup loop runs. -/
def check_and_execute_take_profit (thr : ℚ) (env : CheckEnv)
    (memo : List ℕ) : List ℕ × List ℕ :=
  if env.positions.isEmpty then (memo, [])
  else
    let posSyms := env.positions.map (fun p => p.symbol)
    let memo1 := memo.filter (fun s => posSyms.contains s)
    env.positions.foldl (checkPosStep thr env) (memo1, [])

/-- Repeated monitor runs: one check per environment in the list,
threading the memo; all successful closes are collected. -/
def runChecks (thr : ℚ) (envs : List CheckEnv) (memo : List ℕ) :
    List ℕ × List ℕ :=
  match envs with
  | [] => (memo, [])
  | env :: rest =>
    let r1 := check_and_execute_take_profit thr env memo
    let r2 := runChecks thr rest r1.1
    (r2.1, r1.2 ++ r2.2)

/-- Invariant carried through the position loop: the close list mentions s
at most once, and any close of s leaves s in the memo. -/
def CloseInv (s : ℕ) (acc : List ℕ × List ℕ) : Prop :=
  acc.2.count s ≤ 1 ∧ (1 ≤ acc.2.count s → s ∈ acc.1)

theorem ratFloor_eq_floor (q : ℚ) : ratFloor q = ⌊q⌋ := by
  rw [ratFloor, Rat.floor_def, Int.fdiv_eq_ediv _ (by positivity)]

theorem pyRound_intCast (n : ℤ) : pyRound (n : ℚ) = n := by
  simp [pyRound, ratFloor]

/-- roundToPrec is the identity on rationals already representable with p
decimal digits. -/
theorem roundToPrec_eq_self {q : ℚ} {p : ℕ} (m : ℤ)
    (h : q * (10 : ℚ) ^ p = (m : ℚ)) : roundToPrec q p = q := by
  have hp : ((10 : ℚ) ^ p) ≠ 0 := by positivity
  rw [roundToPrec, h, pyRound_intCast, ← h, mul_div_assoc, div_self hp,
    mul_one]

theorem selectSample_all_none {l : List (Option Sample)}
    (h : ∀ x ∈ l, x = none) (acc : ℤ × ℤ) : selectSample l acc = acc := by
  induction l generalizing acc with
  | nil => rfl
  | cons x rest ih =>
    have hx := h x (List.mem_cons_self x rest)
    subst hx
    simpa [selectSample] using
      ih (fun y hy => h y (List.mem_cons_of_mem _ hy)) acc

theorem selectSample_no_accept {l : List (Option Sample)}
    (h : ∀ x ∈ l, NotAccepted x) (acc : ℤ × ℤ) :
    selectSample l acc = lastSample l acc := by
  induction l generalizing acc with
  | nil => rfl
  | cons x rest ih =>
    have hrest : ∀ y ∈ rest, NotAccepted y :=
      fun y hy => h y (List.mem_cons_of_mem _ hy)
    match x with
    | none => simpa [selectSample, lastSample] using ih hrest acc
    | some s =>
      have hs : 500 ≤ s.reqEnd - s.reqStart :=
        h (some s) (List.mem_cons_self _ rest) s rfl
      have hlt : ¬(s.reqEnd - s.reqStart < 500) := by omega
      simpa [selectSample, lastSample, hlt] using
        ih hrest (s.serverTime, s.reqEnd - s.reqStart)

theorem selectSample_first_accepted {pre : List (Option Sample)}
    (hpre : ∀ x ∈ pre, NotAccepted x) {s : Sample}
    (hs : s.reqEnd - s.reqStart < 500) (rest : List (Option Sample))
    (acc : ℤ × ℤ) :
    selectSample (pre ++ some s :: rest) acc =
      (s.serverTime, s.reqEnd - s.reqStart) := by
  induction pre generalizing acc with
  | nil => simp [selectSample, hs]
  | cons x pre' ih =>
    have hrest : ∀ y ∈ pre', NotAccepted y :=
      fun y hy => hpre y (List.mem_cons_of_mem _ hy)
    match x with
    | none => simpa [selectSample] using ih hrest acc
    | some t =>
      have ht : 500 ≤ t.reqEnd - t.reqStart :=
        hpre (some t) (List.mem_cons_self _ pre') t rfl
      have hlt : ¬(t.reqEnd - t.reqStart < 500) := by omega
      simpa [selectSample, hlt] using
        ih hrest (t.serverTime, t.reqEnd - t.reqStart)

theorem keysNodup_dictDelete {rel : Relations} (h : KeysNodup rel)
    (sym : ℕ) : KeysNodup (dictDelete sym rel) := by
  exact List.Nodup.sublist ((List.filter_sublist rel).map Prod.fst) h

theorem countFor_eq_count (sym : ℕ) (rel : Relations) :
    countFor sym rel = (rel.map Prod.fst).count sym := by
  induction rel with
  | nil => rfl
  | cons p rest ih =>
    unfold countFor at ih ⊢
    by_cases hp : p.1 = sym
    · have hb : (p.1 == sym) = true := by simpa using hp
      simp [List.filter_cons, hb, List.count_cons, ih]
    · have hb : (p.1 == sym) = false := by simpa using hp
      simp [List.filter_cons, hb, List.count_cons, ih]

/-- When no entry of rel carries the key sym, every entry's key differs
from sym. -/
theorem not_any_key {rel : Relations} {sym : ℕ}
    (hany : ¬(rel.any (fun p => p.1 == sym)) = true) :
    ∀ p ∈ rel, p.1 ≠ sym := by
  intro p hp hps
  exact hany (List.any_eq_true.mpr ⟨p, hp, by simpa using hps⟩)

theorem keys_dictInsert (sym oid : ℕ) (rel : Relations) :
    (dictInsert sym oid rel).map Prod.fst =
      if rel.any (fun p => p.1 == sym) then rel.map Prod.fst
      else rel.map Prod.fst ++ [sym] := by
  unfold dictInsert
  by_cases h : rel.any (fun p => p.1 == sym)
  · simp only [h, if_true, List.map_map]
    refine List.map_congr_left ?_
    intro p _
    show (if p.1 == sym then (sym, oid) else p).1 = p.1
    by_cases hp : p.1 = sym
    · rw [if_pos (by simpa using hp)]
      exact hp.symm
    · rw [if_neg (by simpa using hp)]
  · simp [h]

theorem keysNodup_dictInsert {rel : Relations} (h : KeysNodup rel)
    (sym oid : ℕ) : KeysNodup (dictInsert sym oid rel) := by
  unfold KeysNodup
  rw [keys_dictInsert]
  by_cases hany : rel.any (fun p => p.1 == sym)
  · simpa [hany] using h
  · have hnot : sym ∉ rel.map Prod.fst := by
      intro hmem
      rcases List.mem_map.mp hmem with ⟨p, hp, hfst⟩
      exact not_any_key hany p hp hfst
    rw [if_neg hany, List.nodup_append]
    refine ⟨h, List.nodup_singleton sym, ?_⟩
    rw [List.disjoint_left]
    intro a ha hmem
    rcases List.mem_singleton.mp hmem with rfl
    exact hnot ha

theorem countFor_dictDelete (sym : ℕ) (rel : Relations) :
    countFor sym (dictDelete sym rel) = 0 := by
  unfold countFor dictDelete
  rw [List.filter_filter, List.length_eq_zero]
  refine List.filter_eq_nil_iff.mpr ?_
  intro p _
  by_cases hp : p.1 = sym <;> simp [hp]

theorem countFor_dictInsert {rel : Relations} (h : KeysNodup rel)
    (sym oid : ℕ) : countFor sym (dictInsert sym oid rel) = 1 := by
  rw [countFor_eq_count, keys_dictInsert]
  by_cases hany : rel.any (fun p => p.1 == sym)
  · rcases List.any_eq_true.mp hany with ⟨p, hp, hsym⟩
    have hmem : sym ∈ rel.map Prod.fst :=
      List.mem_map.mpr ⟨p, hp, by simpa using hsym⟩
    have hle : (rel.map Prod.fst).count sym ≤ 1 :=
      List.nodup_iff_count_le_one.mp h sym
    have hge : 1 ≤ (rel.map Prod.fst).count sym :=
      List.count_pos_iff.mpr hmem
    simp only [hany, if_true]
    omega
  · have hnot : sym ∉ rel.map Prod.fst := by
      intro hmem
      rcases List.mem_map.mp hmem with ⟨p, hp, hfst⟩
      exact not_any_key hany p hp hfst
    rw [if_neg hany, List.count_append, List.count_eq_zero.mpr hnot]
    simp

theorem checkPosStep_mem_preserved {thr : ℚ} {env : CheckEnv} {s : ℕ}
    {acc : List ℕ × List ℕ} (h : s ∈ acc.1) (pos : TpPosition) :
    s ∈ (checkPosStep thr env acc pos).1 ∧
      (checkPosStep thr env acc pos).2.count s = acc.2.count s := by
  unfold checkPosStep
  by_cases hc : pos.symbol ∈ acc.1
  · simp [hc, h]
  · rw [if_neg (by simpa using hc)]
    cases env.priceOf pos.symbol with
    | none => exact ⟨h, rfl⟩
    | some price =>
      have hne : pos.symbol ≠ s := by
        intro heq
        exact hc (heq ▸ h)
      by_cases hr :
          (if pos.positionAmt > 0 then price / pos.entryPrice
            else pos.entryPrice / price) ≥ thr
      · by_cases ho :
            (take_profit_half_position (env.tphpEnvOf pos.symbol) pos).2
        · simp [hr, ho, List.mem_cons, h, List.count_cons, hne]
        · simp [hr, ho, h]
      · simp [hr, h]

theorem foldl_mem_preserved {thr : ℚ} {env : CheckEnv} {s : ℕ}
    (l : List TpPosition) (acc : List ℕ × List ℕ) (h : s ∈ acc.1) :
    s ∈ (l.foldl (checkPosStep thr env) acc).1 ∧
      (l.foldl (checkPosStep thr env) acc).2.count s = acc.2.count s := by
  induction l generalizing acc with
  | nil => exact ⟨h, rfl⟩
  | cons pos rest ih =>
    rcases checkPosStep_mem_preserved h pos with ⟨h1, h2⟩
    rcases ih (checkPosStep thr env acc pos) h1 with ⟨h3, h4⟩
    exact ⟨h3, h4.trans h2⟩

/-- checkPosStep can only add the symbol of the position it treats. -/
theorem checkPosStep_not_mem {thr : ℚ} {env : CheckEnv} {s : ℕ}
    {acc : List ℕ × List ℕ} (h : s ∉ acc.1) {pos : TpPosition}
    (hpos : pos.symbol ≠ s) : s ∉ (checkPosStep thr env acc pos).1 := by
  unfold checkPosStep
  by_cases hc : pos.symbol ∈ acc.1
  · simpa [hc] using h
  · rw [if_neg (by simpa using hc)]
    cases env.priceOf pos.symbol with
    | none => exact h
    | some price =>
      by_cases hr :
          (if pos.positionAmt > 0 then price / pos.entryPrice
            else pos.entryPrice / price) ≥ thr
      · by_cases ho :
            (take_profit_half_position (env.tphpEnvOf pos.symbol) pos).2
        · simp [hr, ho, List.mem_cons, h, Ne.symm hpos]
        · simp [hr, ho, h]
      · simp [hr, h]

theorem foldl_not_mem {thr : ℚ} {env : CheckEnv} {s : ℕ}
    (l : List TpPosition) (acc : List ℕ × List ℕ) (h : s ∉ acc.1)
    (hl : ∀ p ∈ l, p.symbol ≠ s) :
    s ∉ (l.foldl (checkPosStep thr env) acc).1 := by
  induction l generalizing acc with
  | nil => exact h
  | cons pos rest ih =>
    exact ih _ (checkPosStep_not_mem h (hl pos (List.mem_cons_self _ _)))
      (fun p hp => hl p (List.mem_cons_of_mem _ hp))

theorem closeInv_push {s t : ℕ} {acc : List ℕ × List ℕ}
    (h : CloseInv s acc) (hts : t = s → acc.2.count s = 0) :
    CloseInv s (t :: acc.1, t :: acc.2) := by
  by_cases hts' : t = s
  · subst hts'
    refine ⟨?_, fun _ => List.mem_cons_self t acc.1⟩
    simp [List.count_cons, hts rfl]
  · refine ⟨?_, fun hcnt => ?_⟩
    · simpa [List.count_cons, hts'] using h.1
    · refine List.mem_cons_of_mem t (h.2 ?_)
      simpa [List.count_cons, hts'] using hcnt

theorem checkPosStep_closeInv {thr : ℚ} {env : CheckEnv} {s : ℕ}
    {acc : List ℕ × List ℕ} (h : CloseInv s acc) (pos : TpPosition) :
    CloseInv s (checkPosStep thr env acc pos) := by
  unfold checkPosStep
  by_cases hc : pos.symbol ∈ acc.1
  · simpa [hc] using h
  · rw [if_neg (by simpa using hc)]
    cases env.priceOf pos.symbol with
    | none => exact h
    | some price =>
      dsimp only
      by_cases hr :
          (if pos.positionAmt > 0 then price / pos.entryPrice
            else pos.entryPrice / price) ≥ thr
      · rw [if_pos hr]
        by_cases ho :
            (take_profit_half_position (env.tphpEnvOf pos.symbol) pos).2 = true
        · rw [if_pos ho]
          refine closeInv_push h (fun hps => ?_)
          rcases Nat.eq_zero_or_pos (acc.2.count s) with h0 | h1
          · exact h0
          · exact absurd (h.2 h1) (hps ▸ hc)
        · rw [if_neg ho]
          exact h
      · rw [if_neg hr]
        exact h

theorem foldl_closeInv {thr : ℚ} {env : CheckEnv} {s : ℕ}
    (l : List TpPosition) (acc : List ℕ × List ℕ) (h : CloseInv s acc) :
    CloseInv s (l.foldl (checkPosStep thr env) acc) := by
  induction l generalizing acc with
  | nil => exact h
  | cons pos rest ih => exact ih _ (checkPosStep_closeInv h pos)

theorem check_empty (thr : ℚ) {env : CheckEnv} (hp : env.positions = [])
    (memo : List ℕ) : check_and_execute_take_profit thr env memo =
      (memo, []) := by
  unfold check_and_execute_take_profit
  rw [if_pos (by simp [hp])]

theorem check_in_memo_open {thr : ℚ} {env : CheckEnv} {s : ℕ}
    {memo : List ℕ} (hm : s ∈ memo)
    (hopen : s ∈ env.positions.map (fun p => p.symbol)) :
    s ∈ (check_and_execute_take_profit thr env memo).1 ∧
      (check_and_execute_take_profit thr env memo).2.count s = 0 := by
  unfold check_and_execute_take_profit
  have hne : ¬env.positions.isEmpty = true := by
    rcases List.mem_map.mp hopen with ⟨p, hp, _⟩
    cases he : env.positions with
    | nil => rw [he] at hp; exact absurd hp (List.not_mem_nil p)
    | cons a l => simp [he]
  rw [if_neg hne]
  have hm1 : s ∈ memo.filter
      (fun t => (env.positions.map (fun p => p.symbol)).contains t) := by
    refine List.mem_filter.mpr ⟨hm, by simpa using hopen⟩
  have h2 := @foldl_mem_preserved thr env s env.positions
    (memo.filter
      (fun t => (env.positions.map (fun p => p.symbol)).contains t), []) hm1
  exact ⟨h2.1, h2.2.trans (List.count_nil s)⟩

theorem check_closeInv (thr : ℚ) (env : CheckEnv) (s : ℕ)
    (memo : List ℕ) :
    CloseInv s (check_and_execute_take_profit thr env memo) := by
  unfold check_and_execute_take_profit
  by_cases he : env.positions.isEmpty = true
  · rw [if_pos he]
    exact ⟨by simp, by simp⟩
  · rw [if_neg he]
    exact foldl_closeInv env.positions _ ⟨by simp, by simp⟩

theorem check_removed {thr : ℚ} {env : CheckEnv} {s : ℕ} {memo : List ℕ}
    (hne : env.positions ≠ [])
    (hclosed : s ∉ env.positions.map (fun p => p.symbol)) :
    s ∉ (check_and_execute_take_profit thr env memo).1 := by
  unfold check_and_execute_take_profit
  rw [if_neg (by simpa using hne)]
  refine foldl_not_mem env.positions _ (fun hmem => ?_) (fun p hp heq => ?_)
  · exact hclosed (by simpa using (List.mem_filter.mp hmem).2)
  · exact hclosed (List.mem_map.mpr ⟨p, hp, heq⟩)

/-- Memo retention across one check, for a symbol already memoised:
it survives exactly when the position list is empty or still mentions the
symbol. -/
theorem check_memo_retention (thr : ℚ) (env : CheckEnv) {s : ℕ}
    {memo : List ℕ} (hm : s ∈ memo) :
    s ∈ (check_and_execute_take_profit thr env memo).1 ↔
      (env.positions = [] ∨ s ∈ env.positions.map (fun p => p.symbol)) := by
  constructor
  · intro hin
    by_cases hp : env.positions = []
    · exact Or.inl hp
    · by_cases ho2 : s ∈ env.positions.map (fun p => p.symbol)
      · exact Or.inr ho2
      · exact absurd hin (check_removed hp ho2)
  · intro hor
    rcases hor with hp | hopen
    · rw [check_empty thr hp memo]
      exact hm
    · exact (check_in_memo_open hm hopen).1

theorem runChecks_in_memo {thr : ℚ} {s : ℕ} (envs : List CheckEnv)
    (memo : List ℕ) (hm : s ∈ memo)
    (hopen : ∀ env ∈ envs, env.positions = [] ∨
      s ∈ env.positions.map (fun p => p.symbol)) :
    s ∈ (runChecks thr envs memo).1 ∧
      (runChecks thr envs memo).2.count s = 0 := by
  induction envs generalizing memo with
  | nil => exact ⟨hm, rfl⟩
  | cons env rest ih =>
    have h1 : s ∈ (check_and_execute_take_profit thr env memo).1 ∧
        (check_and_execute_take_profit thr env memo).2.count s = 0 := by
      rcases hopen env (List.mem_cons_self _ _) with hp | ho
      · rw [check_empty thr hp memo]
        exact ⟨hm, rfl⟩
      · exact check_in_memo_open hm ho
    have h2 := ih _ h1.1 (fun e he => hopen e (List.mem_cons_of_mem _ he))
    refine ⟨h2.1, ?_⟩
    simp [runChecks, List.count_append, h1.2, h2.2]

/-- Across any run of checks during which the symbol stays in the live
position set, at most one successful half close fires for it. -/
theorem runChecks_at_most_one {thr : ℚ} {s : ℕ} (envs : List CheckEnv)
    (memo : List ℕ)
    (hopen : ∀ env ∈ envs, s ∈ env.positions.map (fun p => p.symbol)) :
    (runChecks thr envs memo).2.count s ≤ 1 := by
  induction envs generalizing memo with
  | nil => simp [runChecks]
  | cons env rest ih =>
    have hsplit : (runChecks thr (env :: rest) memo).2 =
        (check_and_execute_take_profit thr env memo).2 ++
          (runChecks thr rest
            (check_and_execute_take_profit thr env memo).1).2 := rfl
    by_cases hm : s ∈ memo
    · have h0 := (@runChecks_in_memo thr s (env :: rest) memo hm
        (fun e he => Or.inr (hopen e he))).2
      omega
    · have hinv := check_closeInv thr env s memo
      have hrest := ih (check_and_execute_take_profit thr env memo).1
        (fun e he => hopen e (List.mem_cons_of_mem _ he))
      rcases Nat.eq_zero_or_pos
          ((check_and_execute_take_profit thr env memo).2.count s) with h0 | h1
      · rw [hsplit, List.count_append, h0]
        omega
      · have hs1 : s ∈ (check_and_execute_take_profit thr env memo).1 :=
          hinv.2 h1
        have hz := (@runChecks_in_memo thr s rest _ hs1
          (fun e he => Or.inr (hopen e (List.mem_cons_of_mem _ he)))).2
        have hle := hinv.1
        rw [hsplit, List.count_append, hz]
        omega

/-! ## Claim theorems -/

/-- C1 counterexample.  The claim states that calculate_quantity returns
None or an exact multiple of the step size that is at least the minimum
quantity.  With marginAmount = 0.24, leverage = 1, price = 1, stepSize =
0.06, minQty = 0.24 and quantityPrecision = 1, the pre-format quantity is
0.24 (4 steps, passing the minimum check), but formatting to one decimal
returns 0.2, which is neither a multiple of 0.06 nor at least 0.24. -/
theorem C1_counterexample :
    calculate_quantity (6/25) 1 1 ⟨3/50, 6/25, 1⟩ = some (1/5) ∧
    ¬IsMultipleOf (3/50) (1/5) ∧ ¬((6:ℚ)/25 ≤ 1/5) := by
  refine ⟨?_, ?_, by norm_num⟩
  · have h1 : pyRound ((6:ℚ)/25 * 1 / 1 / (3/50)) = 4 := by
      norm_num [pyRound, ratFloor]
    simp only [calculate_quantity, h1, roundToPrec]
    norm_num [pyRound, ratFloor, Int.fdiv_eq_ediv]
  · rintro ⟨k, hk⟩
    have h10 : (10 : ℚ) = 3 * (k : ℚ) := by
      field_simp at hk
      linarith
    have h10' : (10 : ℤ) = 3 * k := by exact_mod_cast h10
    omega

/-- C1 (amended): whenever the instrument's step size is exactly
representable at its quantity precision (stepSize * 10 ^ precision is an
integer — true of every real exchange instrument), calculate_quantity
returns None or an exact multiple of the step size that is at least the
minimum quantity, obtained by rounding rawQty = marginAmount * leverage /
price to the nearest multiple of the step size; without that
representability condition the final precision-formatting step can break
both guarantees. -/
theorem C1_calculate_quantity_lot_compliant
    (usdt_amount leverage price : ℚ) (rule : LotRule) (m : ℤ)
    (hrepr : rule.stepSize * (10:ℚ) ^ rule.quantityPrecision = (m : ℚ))
    (q : ℚ)
    (hq : calculate_quantity usdt_amount leverage price rule = some q) :
    IsMultipleOf rule.stepSize q ∧ rule.minQty ≤ q := by
  simp only [calculate_quantity] at hq
  split at hq
  · cases hq
  · rename_i hmin
    have hle : rule.minQty ≤
        (pyRound (usdt_amount * leverage / price / rule.stepSize) : ℚ) *
          rule.stepSize := not_lt.mp hmin
    have hint : ((pyRound (usdt_amount * leverage / price / rule.stepSize) :
        ℚ) * rule.stepSize) * (10:ℚ) ^ rule.quantityPrecision =
        ((pyRound (usdt_amount * leverage / price / rule.stepSize) * m :
          ℤ) : ℚ) := by
      push_cast
      rw [mul_assoc, hrepr]
    have hself := roundToPrec_eq_self _ hint
    rw [hself] at hq
    cases hq
    exact ⟨⟨pyRound (usdt_amount * leverage / price / rule.stepSize), rfl⟩,
      hle⟩

/-- C1 witness: marginAmount = 1, leverage = 2, price = 4, stepSize = 0.1,
minQty = 0.1, precision = 1 yields quantity 0.5, a multiple of the step at
or above the minimum. -/
theorem C1_witness : IsMultipleOf (1/10) (1/2) ∧ (1:ℚ)/10 ≤ 1/2 := by
  refine C1_calculate_quantity_lot_compliant 1 2 4 ⟨1/10, 1/10, 1⟩ 1
    (by norm_num) (1/2) ?_
  have h1 : pyRound ((1:ℚ) * 2 / 4 / (1/10)) = 5 := by
    norm_num [pyRound, ratFloor, Int.fdiv_eq_ediv]
  simp only [calculate_quantity, h1, roundToPrec]
  norm_num [pyRound, ratFloor, Int.fdiv_eq_ediv]

/-- C2: for every candle with populated ma20 and ma60, the code's entry
signal fires exactly when the spec's four conjuncts hold; in particular it
fires for open=100, close=102, low=97, ma20=99, ma60=98 and does not fire
when close is changed to 112. -/
theorem C2_check_open_long_signal_iff :
    (∀ k : Kline, check_open_long_signal k = true ↔ SpecSignalFires k) ∧
    check_open_long_signal ⟨100, 103, 97, 102, 99, 98⟩ = true ∧
    check_open_long_signal ⟨100, 113, 97, 112, 99, 98⟩ = false := by
  refine ⟨fun k => ?_, by norm_num [check_open_long_signal],
    by norm_num [check_open_long_signal]⟩
  unfold check_open_long_signal SpecSignalFires
  simp only [Bool.and_eq_true, decide_eq_true_eq]
  tauto

/-- C3: a first attempt failing with the permanent-rejection code -4059 is
rethrown immediately after exactly one attempt, and three consecutive
transient failures exhaust exactly max_retries = 3 attempts, after which
the last recorded error is raised. -/
theorem C3_safe_request_retry_policy :
    (∀ (o : ℕ → Outcome ℕ) (e : ReqError), o 0 = .err e →
      e.code = some (-4059) → safe_request o = (.raised e, 1)) ∧
    (∀ (o : ℕ → Outcome ℕ) (e0 e1 e2 : ReqError), o 0 = .err e0 →
      o 1 = .err e1 → o 2 = .err e2 → Transient e0 → Transient e1 →
      Transient e2 → safe_request o = (.raised e2, 3)) := by
  constructor
  · intro o e h0 hc
    simp [safe_request, safeRequestGo, h0, hc]
  · intro o e0 e1 e2 h0 h1 h2 t0 t1 t2
    simp [safe_request, safeRequestGo, h0, h1, h2,
      t0.1, t0.2, t1.1, t1.2, t2.1, t2.2]

/-- C3 witness: a permanent failure on attempt 0 gives one attempt; three
errors without code give three attempts and raise the last one. -/
theorem C3_witness :
    safe_request ((fun _ => Outcome.err ⟨some (-4059), 0⟩) :
        ℕ → Outcome ℕ) = (SRResult.raised ⟨some (-4059), 0⟩, 1) ∧
    safe_request ((fun i => Outcome.err ⟨none, i⟩) : ℕ → Outcome ℕ) =
      (SRResult.raised (⟨none, 2⟩ : ReqError), 3) := by
  constructor
  · exact C3_safe_request_retry_policy.1 _ _ rfl rfl
  · exact C3_safe_request_retry_policy.2 _ _ _ _ rfl rfl rfl
      ⟨by simp, by simp⟩ ⟨by simp, by simp⟩ ⟨by simp, by simp⟩

/-- C4 counterexample.  The claim states that when no sample's delay is
below 500 ms the best (lowest-delay) sample is kept, and that the offset
is remoteTime - (that sample's request-send time + its delay / 2).  With
two reachable endpoints of delays 600 ms (send time 1000, server time
7000) and 700 ms (send time 2000, server time 8000) and sync start time 0,
the code keeps the second (last) sample, not the first (best), and uses
the sync start time 0 instead of the sample's send time: the stored offset
is 8000 - (0 + 350) = 7650, where the claim predicts
7000 - (1000 + 300) = 5700. -/
theorem C4_counterexample :
    sync_time true
        ⟨0, [some ⟨1000, 1600, 7000⟩, some ⟨2000, 2700, 8000⟩], 3000⟩
        ⟨0, 0, 0, false, 0⟩ =
      (⟨7650, 8000, 3000, true, 0⟩, SyncOutcome.synced) ∧
    (7650 : ℤ) ≠ 7000 - (1000 + 600 / 2) := by
  constructor
  · decide
  · decide

/-- C4 (amended): for every sync_time run that passes the throttle check
and reaches at least one endpoint, endpoints are queried in order and the
first sample whose delay is below 500 ms is accepted; when no sample is
below the threshold the sample of the LAST reachable endpoint is kept (not
the lowest-delay one); and the stored offset equals
remoteTime - (syncStartTime + networkDelay / 2) where syncStartTime is the
single clock reading taken at the top of sync_time (not the accepted
sample's own send time) and the halving is floor division. -/
theorem C4_sync_time_sample_selection (force : Bool) (env : SyncEnv)
    (st : SyncState)
    (hthr : force = true ∨ 5000 ≤ env.startTime - st.last_sync_time)
    (hreach : (selectSample env.samples (0, 1000)).1 ≠ 0) :
    sync_time force env st =
      ({ time_offset := (selectSample env.samples (0, 1000)).1 -
           (env.startTime + Int.fdiv (selectSample env.samples (0, 1000)).2 2),
         last_server_time := (selectSample env.samples (0, 1000)).1,
         last_local_time := env.respTime,
         is_synced := true,
         last_sync_time := env.startTime }, SyncOutcome.synced) ∧
    (∀ pre s rest, env.samples = pre ++ some s :: rest →
      (∀ x ∈ pre, NotAccepted x) → s.reqEnd - s.reqStart < 500 →
      selectSample env.samples (0, 1000) =
        (s.serverTime, s.reqEnd - s.reqStart)) ∧
    ((∀ x ∈ env.samples, NotAccepted x) →
      selectSample env.samples (0, 1000) =
        lastSample env.samples (0, 1000)) := by
  have hpass : ¬(¬force = true ∧ env.startTime - st.last_sync_time < 5000) := by
    rcases hthr with h | h
    · simp [h]
    · exact fun hcon => absurd hcon.2 (by omega)
  refine ⟨?_, ?_, ?_⟩
  · unfold sync_time
    rw [if_neg hpass]
    dsimp only
    rw [if_neg hreach]
  · intro pre s rest hsplit hpre hs
    rw [hsplit]
    exact selectSample_first_accepted hpre hs rest _
  · intro hall
    exact selectSample_no_accept hall _

/-- C4 witness: one endpoint with delay 90 ms (below threshold) is
accepted; the offset is 5000 - (0 + 45) = 4955. -/
theorem C4_witness :
    sync_time false ⟨0, [some ⟨10, 100, 5000⟩], 200⟩
        ⟨1, 2, 3, false, -10000⟩ =
      (⟨4955, 5000, 200, true, 0⟩, SyncOutcome.synced) := by
  have h := C4_sync_time_sample_selection false
    ⟨0, [some ⟨10, 100, 5000⟩], 200⟩ ⟨1, 2, 3, false, -10000⟩
    (Or.inr (by decide)) (by decide)
  exact h.1.trans (by decide)

/-- C8: when every endpoint is unreachable (and the run is not throttled
away), sync_time fails, leaves time_offset, last_server_time,
last_local_time and last_sync_time unchanged, and sets is_synced to
false. -/
theorem C8_sync_time_all_unreachable (force : Bool) (env : SyncEnv)
    (st : SyncState)
    (hthr : force = true ∨ 5000 ≤ env.startTime - st.last_sync_time)
    (hnone : ∀ x ∈ env.samples, x = none) :
    sync_time force env st =
      ({ st with is_synced := false }, SyncOutcome.failed) := by
  have hpass : ¬(¬force = true ∧ env.startTime - st.last_sync_time < 5000) := by
    rcases hthr with h | h
    · simp [h]
    · exact fun hcon => absurd hcon.2 (by omega)
  unfold sync_time
  rw [if_neg hpass]
  dsimp only
  rw [selectSample_all_none hnone]
  simp

/-- C8 witness: four unreachable endpoints leave the stored sync data of a
previously synced state intact and mark it unsynced. -/
theorem C8_witness :
    sync_time false ⟨10000, [none, none, none, none], 99⟩
        ⟨5, 6, 7, true, 0⟩ = (⟨5, 6, 7, false, 0⟩, SyncOutcome.failed) := by
  have h := C8_sync_time_all_unreachable false
    ⟨10000, [none, none, none, none], 99⟩ ⟨5, 6, 7, true, 0⟩
    (Or.inr (by decide)) (by intro x hx; simpa using hx)
  exact h.trans rfl

/-- C9: with a synced state, a positive last_server_time and both calls
landing within the staleness window (so no resync is triggered and the
stored last_server_time / last_local_time are unchanged), two consecutive
get_synced_timestamp calls at non-decreasing local clock readings return
non-decreasing timestamps, each computed by extrapolation as
last_server_time + (nowLocal - last_local_time) — the stored offset is not
added to the live clock. -/
theorem C9_get_synced_timestamp_monotone (st : SyncState)
    (env1 env2 : GstEnv) (hsync : st.is_synced = true)
    (hpos : 0 < st.last_server_time)
    (h1 : env1.clock1 - st.last_local_time ≤ 1800000)
    (h2 : env2.clock1 - st.last_local_time ≤ 1800000)
    (h12 : env1.clock1 ≤ env2.clock1) :
    get_synced_timestamp env1 st =
      (st, st.last_server_time + (env1.clock1 - st.last_local_time)) ∧
    get_synced_timestamp env2 (get_synced_timestamp env1 st).1 =
      (st, st.last_server_time + (env2.clock1 - st.last_local_time)) ∧
    (get_synced_timestamp env1 st).2 ≤
      (get_synced_timestamp env2 (get_synced_timestamp env1 st).1).2 := by
  have hns1 : ¬(env1.clock1 - st.last_local_time > 1800000) := by omega
  have hns2 : ¬(env2.clock1 - st.last_local_time > 1800000) := by omega
  have e1 : get_synced_timestamp env1 st =
      (st, st.last_server_time + (env1.clock1 - st.last_local_time)) := by
    unfold get_synced_timestamp
    dsimp only
    rw [if_pos hsync, if_neg hns1]
    dsimp only
    rw [if_pos hpos]
  have e2 : get_synced_timestamp env2 st =
      (st, st.last_server_time + (env2.clock1 - st.last_local_time)) := by
    unfold get_synced_timestamp
    dsimp only
    rw [if_pos hsync, if_neg hns2]
    dsimp only
    rw [if_pos hpos]
  refine ⟨e1, ?_, ?_⟩
  · rw [e1]
    exact e2
  · rw [e1]
    dsimp only
    rw [e2]
    dsimp only
    omega

/-- C9 witness: last_server_time 100, last_local_time 50, calls at local
clocks 60 then 70 return 110 then 120. -/
theorem C9_witness :
    get_synced_timestamp ⟨⟨0, [], 0⟩, 60, ⟨0, [], 0⟩, 0⟩
        ⟨0, 100, 50, true, 0⟩ = (⟨0, 100, 50, true, 0⟩, 110) ∧
    get_synced_timestamp ⟨⟨0, [], 0⟩, 70, ⟨0, [], 0⟩, 0⟩
        ⟨0, 100, 50, true, 0⟩ = (⟨0, 100, 50, true, 0⟩, 120) := by
  have h := C9_get_synced_timestamp_monotone ⟨0, 100, 50, true, 0⟩
    ⟨⟨0, [], 0⟩, 60, ⟨0, [], 0⟩, 0⟩ ⟨⟨0, [], 0⟩, 70, ⟨0, [], 0⟩, 0⟩
    rfl (by decide) (by decide) (by decide) (by decide)
  have h21 := h.2.1
  rw [h.1] at h21
  exact ⟨h.1, h21⟩

/-- C10: when all three attempts fail with the clock-skew code 1021, no
last error is recorded and safe_request raises the generic
unknown-request-error exception, so the defensive final branch is
reachable. -/
theorem C10_unknown_error_reachable :
    ∀ (o : ℕ → Outcome ℕ) (e0 e1 e2 : ReqError), o 0 = .err e0 →
      o 1 = .err e1 → o 2 = .err e2 → e0.code = some 1021 →
      e1.code = some 1021 → e2.code = some 1021 →
      safe_request o = (.unknownError, 3) := by
  intro o e0 e1 e2 h0 h1 h2 c0 c1 c2
  simp [safe_request, safeRequestGo, h0, h1, h2, c0, c1, c2]

/-- C10 witness: three 1021 failures raise the generic unknown error after
three attempts. -/
theorem C10_witness :
    safe_request ((fun i => Outcome.err ⟨some 1021, i⟩) : ℕ → Outcome ℕ) =
      (SRResult.unknownError, 3) :=
  C10_unknown_error_reachable _ _ _ _ rfl rfl rfl rfl rfl rfl

theorem countFor_le_one {rel : Relations} (h : KeysNodup rel) (t : ℕ) :
    countFor t rel ≤ 1 := by
  rw [countFor_eq_count]
  exact List.nodup_iff_count_le_one.mp h t

theorem keysNodup_cancel {rel : Relations} (h : KeysNodup rel) (ok : Bool)
    (sym : ℕ) : KeysNodup (cancel_associated_orders ok sym rel) := by
  unfold cancel_associated_orders
  cases ok
  · simpa using h
  · simpa using keysNodup_dictDelete h sym

theorem set_stop_loss_nodup {env : SetSLEnv} {klineLow : ℚ} {sym : ℕ}
    {rel : Relations} (h : KeysNodup rel) :
    KeysNodup (set_stop_loss env klineLow sym rel).1 := by
  obtain ⟨pa, info, prec, lok, oid⟩ := env
  unfold set_stop_loss
  cases pa with
  | none => exact h
  | some amt =>
    dsimp only
    by_cases h0 : amt = 0
    · rw [if_pos h0]
      exact h
    · rw [if_neg h0]
      by_cases hinfo : ¬info = true
      · rw [if_pos hinfo]
        exact h
      · rw [if_neg hinfo]
        cases oid with
        | none => exact keysNodup_cancel h _ _
        | some o2 => exact keysNodup_dictInsert (keysNodup_cancel h _ _) _ _

theorem set_stop_loss_some {env : SetSLEnv} {klineLow : ℚ} {sym : ℕ}
    {rel : Relations} (h : KeysNodup rel) {o : ℕ × ℚ}
    (hsome : (set_stop_loss env klineLow sym rel).2 = some o) :
    countFor sym (set_stop_loss env klineLow sym rel).1 = 1 := by
  obtain ⟨pa, info, prec, lok, oid⟩ := env
  unfold set_stop_loss at hsome ⊢
  cases pa with
  | none => cases hsome
  | some amt =>
    dsimp only at hsome ⊢
    by_cases h0 : amt = 0
    · rw [if_pos h0] at hsome
      cases hsome
    · rw [if_neg h0] at hsome ⊢
      by_cases hinfo : ¬info = true
      · rw [if_pos hinfo] at hsome
        cases hsome
      · rw [if_neg hinfo] at hsome ⊢
        cases oid with
        | none => cases hsome
        | some o2 => exact countFor_dictInsert (keysNodup_cancel h _ _) _ _

theorem update_stop_loss_nodup {env : UpdSLEnv} {sym : ℕ}
    {rel : Relations} (h : KeysNodup rel) :
    KeysNodup (update_stop_loss env sym rel).1 := by
  obtain ⟨pa, hk, info, prec, lok, oid, vn⟩ := env
  unfold update_stop_loss
  cases pa with
  | none => exact h
  | some amt =>
    dsimp only
    by_cases h0 : amt = 0
    · rw [if_pos h0]
      exact h
    · rw [if_neg h0]
      cases hk with
      | none => exact h
      | some k =>
        dsimp only
        by_cases hpc : (k.2.2 - k.1) / k.1 * 100 < 1
        · rw [if_pos hpc]
          exact h
        · rw [if_neg hpc]
          by_cases hinfo : ¬info = true
          · rw [if_pos hinfo]
            exact h
          · rw [if_neg hinfo]
            cases oid with
            | none => exact keysNodup_cancel h _ _
            | some o2 =>
              dsimp only
              by_cases hv : vn = true
              · rw [if_pos hv]
                exact keysNodup_dictInsert (keysNodup_cancel h _ _) _ _
              · rw [if_neg hv]
                exact keysNodup_cancel h _ _

theorem update_stop_loss_some {env : UpdSLEnv} {sym : ℕ}
    {rel : Relations} (h : KeysNodup rel) {o : ℕ × ℚ}
    (hsome : (update_stop_loss env sym rel).2 = some o) :
    countFor sym (update_stop_loss env sym rel).1 = 1 := by
  obtain ⟨pa, hk, info, prec, lok, oid, vn⟩ := env
  unfold update_stop_loss at hsome ⊢
  cases pa with
  | none => cases hsome
  | some amt =>
    dsimp only at hsome ⊢
    by_cases h0 : amt = 0
    · rw [if_pos h0] at hsome
      cases hsome
    · rw [if_neg h0] at hsome ⊢
      cases hk with
      | none => cases hsome
      | some k =>
        dsimp only at hsome ⊢
        by_cases hpc : (k.2.2 - k.1) / k.1 * 100 < 1
        · rw [if_pos hpc] at hsome
          cases hsome
        · rw [if_neg hpc] at hsome ⊢
          by_cases hinfo : ¬info = true
          · rw [if_pos hinfo] at hsome
            cases hsome
          · rw [if_neg hinfo] at hsome ⊢
            cases oid with
            | none => cases hsome
            | some o2 =>
              dsimp only at hsome ⊢
              by_cases hv : vn = true
              · rw [if_pos hv]
                exact countFor_dictInsert (keysNodup_cancel h _ _) _ _
              · rw [if_neg hv] at hsome
                cases hsome

/-- C5 counterexample.  The claim states that after any completed
set_stop_loss call on a symbol with an open position exactly one stop-loss
record exists — never zero.  With an open position (amount 1), instrument
metadata present, a tracked record (7, 42), a successful
cancel_associated_orders listing and a failed order placement, the call
completes (returning None) with ZERO records for the symbol: the old
record was deleted and no new one was stored. -/
theorem C5_counterexample :
    set_stop_loss ⟨some 1, true, 2, true, none⟩ 100 7 [(7, 42)] =
      ([], none) ∧ countFor 7 ([] : Relations) = 0 := by
  constructor
  · norm_num [set_stop_loss, cancel_associated_orders, dictDelete]
  · rfl

/-- C5 (amended): the tracking table holds at most one stop-loss record
per symbol at every moment (given duplicate-free keys, as Python dict
semantics guarantee), and a set_stop_loss or update_stop_loss call that
SUCCEEDS (returns the created order) leaves exactly one record for the
symbol; a completed call that fails after cancelling, however, can leave
zero records. -/
theorem C5_stop_loss_record_invariant (env : SetSLEnv) (envU : UpdSLEnv)
    (klineLow : ℚ) (sym : ℕ) (rel : Relations) (h : KeysNodup rel) :
    (∀ t, countFor t (set_stop_loss env klineLow sym rel).1 ≤ 1) ∧
    (∀ o, (set_stop_loss env klineLow sym rel).2 = some o →
      countFor sym (set_stop_loss env klineLow sym rel).1 = 1) ∧
    (∀ t, countFor t (update_stop_loss envU sym rel).1 ≤ 1) ∧
    (∀ o, (update_stop_loss envU sym rel).2 = some o →
      countFor sym (update_stop_loss envU sym rel).1 = 1) :=
  ⟨fun t => countFor_le_one (set_stop_loss_nodup h) t,
   fun _ ho => set_stop_loss_some h ho,
   fun t => countFor_le_one (update_stop_loss_nodup h) t,
   fun _ ho => update_stop_loss_some h ho⟩

/-- C5 witness: successful calls on an empty table leave exactly one
record for symbol 7. -/
theorem C5_witness :
    countFor 7 (set_stop_loss ⟨some 1, true, 2, true, some 9⟩ 100 7 []).1
      = 1 ∧
    countFor 7 (update_stop_loss
      ⟨some 1, some (100, 50, 102), true, 2, true, some 9, true⟩ 7 []).1
      = 1 := by
  have h := C5_stop_loss_record_invariant ⟨some 1, true, 2, true, some 9⟩
    ⟨some 1, some (100, 50, 102), true, 2, true, some 9, true⟩ 100 7 []
    (by simp [KeysNodup])
  refine ⟨h.2.1 (9, 999/10) ?_, h.2.2.2 (9, 999/20) ?_⟩
  · have h1 : pyRound ((100:ℚ) * (999/1000) * (10:ℚ) ^ 2) = 9990 := by
      norm_num [pyRound, ratFloor, Int.fdiv_eq_ediv]
    simp only [set_stop_loss, roundToPrec, h1]
    norm_num
  · have h1 : pyRound ((50:ℚ) * (999/1000) * (10:ℚ) ^ 2) = 4995 := by
      norm_num [pyRound, ratFloor, Int.fdiv_eq_ediv]
    simp only [update_stop_loss, roundToPrec, h1]
    norm_num

/-- C6 counterexample.  The claim states the memo entry is removed exactly
when the symbol is absent from the live position set.  When the live
position set is empty, check_and_execute_take_profit returns before the
cleanup loop: symbol 5 is absent from the (empty) live set, yet its memo
entry survives the check. -/
theorem C6_counterexample :
    (check_and_execute_take_profit (13/10)
        ⟨[], fun _ => none, fun _ => ⟨none, false, none, false⟩⟩ [5]).1 =
      [5] ∧
    (5 : ℕ) ∉ (([] : List TpPosition).map (fun p => p.symbol)) :=
  ⟨rfl, by simp⟩

/-- C6 (amended): while a symbol stays in the live position set across a
run of checks, at most one successful partial close fires for it; and for
a memoised symbol, the memo entry survives one check exactly when the
position list is empty or still mentions the symbol — so the entry is
removed exactly when the live position set is NON-EMPTY and the symbol is
absent from it, and a full close observed only through an empty position
list leaves the memo entry in place, delaying re-arming. -/
theorem C6_take_profit_memo (thr : ℚ) (s : ℕ) :
    (∀ (envs : List CheckEnv) (memo : List ℕ),
      (∀ env ∈ envs, s ∈ env.positions.map (fun p => p.symbol)) →
      (runChecks thr envs memo).2.count s ≤ 1) ∧
    (∀ (env : CheckEnv) (memo : List ℕ), s ∈ memo →
      (s ∈ (check_and_execute_take_profit thr env memo).1 ↔
        (env.positions = [] ∨
          s ∈ env.positions.map (fun p => p.symbol)))) :=
  ⟨fun envs memo h => runChecks_at_most_one envs memo h,
   fun env _ hm => check_memo_retention thr env hm⟩

/-- C6 witness: a single check over one open position in symbol 5 closes
it at most once, and a memoised symbol still present in the position list
keeps its memo entry. -/
theorem C6_witness :
    (runChecks (13/10) [⟨[⟨5, 1, 1⟩], fun _ => none,
        fun _ => ⟨none, false, none, false⟩⟩] []).2.count 5 ≤ 1 ∧
    (5 ∈ (check_and_execute_take_profit (13/10) ⟨[⟨5, 1, 1⟩],
        fun _ => none, fun _ => ⟨none, false, none, false⟩⟩ [5]).1 ↔
      (([⟨5, 1, 1⟩] : List TpPosition) = [] ∨
        5 ∈ ([⟨5, 1, 1⟩] : List TpPosition).map (fun p => p.symbol))) :=
  ⟨(C6_take_profit_memo (13/10) 5).1 _ _ (by simp),
   (C6_take_profit_memo (13/10) 5).2 _ _ (by simp)⟩

/-- C7 counterexample.  The claim states the half close submits half the
absolute position amount rounded DOWN to the nearest step multiple.  With
position amount 1, stepSize 0.3 and minQty 0.1, half is 0.5, rounding
down would submit 0.3, but the code uses Python round (to nearest) and
submits 0.6 — more than the whole half. -/
theorem C7_counterexample :
    (take_profit_half_position ⟨some 2, true, some (3/10, 1/10), true⟩
        ⟨1, 1, 1⟩).1 = some ⟨true, 3/5, true, true⟩ ∧
    (3 : ℚ)/5 ≠ ((ratFloor (|(1 : ℚ)| / 2 / (3/10)) : ℚ) * (3/10)) := by
  constructor
  · have h1 : pyRound (|(1:ℚ)| / 2 / (3/10)) = 2 := by
      norm_num [pyRound, ratFloor, Int.fdiv_eq_ediv]
    simp only [take_profit_half_position, h1]
    norm_num
  · have h1 : ratFloor (|(1:ℚ)| / 2 / (3/10)) = 1 := by
      norm_num [ratFloor, Int.fdiv_eq_ediv]
    rw [h1]
    norm_num

/-- C7 (amended): with price and instrument metadata available and a
LOT_SIZE filter present, take_profit_half_position submits, as a
reduce-only market order, half the absolute position amount rounded to the
NEAREST multiple of the step size (Python round, ties to even — not
rounded down); when that rounded size is below the minimum quantity the
operation is rejected and no order is placed. -/
theorem C7_half_close (env : TphpEnv) (pos : TpPosition) (price : ℚ)
    (hprice : env.currentPrice = some price) (hinfo : env.symbolInfo = true)
    (step minq : ℚ) (hfilter : env.lotFilter = some (step, minq)) :
    ((pyRound (|pos.positionAmt| / 2 / step) : ℚ) * step < minq →
      take_profit_half_position env pos = (none, false)) ∧
    (minq ≤ (pyRound (|pos.positionAmt| / 2 / step) : ℚ) * step →
      env.orderOk = true →
      take_profit_half_position env pos =
        (some ⟨decide (pos.positionAmt > 0),
          (pyRound (|pos.positionAmt| / 2 / step) : ℚ) * step, true, true⟩,
         true)) := by
  obtain ⟨cp, info, lf, ok⟩ := env
  cases hprice
  cases hinfo
  cases hfilter
  unfold take_profit_half_position
  dsimp only
  constructor
  · intro hlt
    rw [if_neg (by simp), if_pos hlt]
  · intro hge hok
    cases hok
    rw [if_neg (by simp), if_neg (not_lt.mpr hge), if_pos rfl]

/-- C7 witness: position amount 1, stepSize 0.1, minQty 0.1: the submitted
reduce-only market order carries quantity 0.5. -/
theorem C7_witness :
    take_profit_half_position ⟨some 2, true, some (1/10, 1/10), true⟩
        ⟨1, 1, 1⟩ = (some ⟨true, 1/2, true, true⟩, true) := by
  have h := (C7_half_close ⟨some 2, true, some (1/10, 1/10), true⟩
    ⟨1, 1, 1⟩ 2 rfl rfl (1/10) (1/10) rfl).2
  have h5 : pyRound (|(1:ℚ)| / 2 / (1/10)) = 5 := by
    norm_num [pyRound, ratFloor, Int.fdiv_eq_ediv]
  rw [h (by rw [h5]; norm_num) rfl, h5]
  norm_num

end Range
